import Mathlib

/-!
Shallow embedding of `wayback.go` (package main of wayback_machine_downloaderGO).

The Go program downloads archived captures of a website from the Wayback
Machine.  The embedding below translates, from the source:

* the string helpers of Go's `strings` / `path` / `path/filepath` packages
  that the program uses (`Contains`, `HasPrefix`, `HasSuffix`, `TrimPrefix`,
  `filepath.Join` with its path cleaning, `filepath.Base`, `filepath.Dir`);
* the data model (`Snapshot`, the downloader state) and every function of
  `wayback.go` whose behaviour the claims mention:
  `getRawListFromAPI`, `downloadFile`, `downloadSnapshot`,
  `downloadRecursively`, `getExtensionFromContentType`, and the download
  loop of `main`.

Network and HTML-parsing effects are passed in as an explicit environment
(`Env`): a function from request URL to optional response, and a function
from file content to an optional parsed HTML tree, mirroring the blocking
`http.Get` and `html.Parse` collaborators of the source.  The filesystem is
explicit state (`DState.files`); directory creation and file writes never
fail in the model (the claims under study do not hinge on fs failure).
-/

namespace Wayback

/-! ### Go string primitives -/

/-- `pat` occurs as a contiguous subsequence of `l`. -/
def hasSub (pat : List Char) : List Char → Bool
  | [] => pat.isEmpty
  | a :: as => pat.isPrefixOf (a :: as) || hasSub pat as

/-- Go `strings.Contains s pat`: `pat` occurs as a contiguous substring. -/
def strContains (s pat : String) : Bool :=
  hasSub pat.data s.data

/-- Go `strings.HasPrefix s pre`. -/
def strStartsWith (s pre : String) : Bool :=
  pre.data.isPrefixOf s.data

/-- Go `strings.HasSuffix s suf`. -/
def strEndsWith (s suf : String) : Bool :=
  suf.data.reverse.isPrefixOf s.data.reverse

/-- Go `strings.TrimPrefix v "."`: drop one leading `.` when present. -/
def trimDot (v : String) : String :=
  if strStartsWith v "." then ⟨v.data.drop 1⟩ else v

/-- Split a character list at every occurrence of `c` (the segments of a
slash-separated path when `c = '/'`). -/
def splitOnChar (c : Char) : List Char → List (List Char)
  | [] => [[]]
  | x :: xs =>
    match splitOnChar c xs with
    | [] => [[x]]
    | y :: ys => if x = c then [] :: y :: ys else (x :: y) :: ys

/-- The `/`-separated segments of a path string. -/
def segsOf (p : String) : List String :=
  (splitOnChar '/' p.data).map fun l => ⟨l⟩

/-- Join path segments with `/` (Go `strings.Join segs "/"`). -/
def joinSegs : List String → String
  | [] => ""
  | [s] => s
  | s :: t :: rest => s ++ "/" ++ joinSegs (t :: rest)

/-! ### Go `path/filepath` (slash separator, as on the Linux target) -/

/-- The stack machine of Go's `filepath.Clean`: process the segments left to
right; `""` and `"."` are dropped, `".."` pops the last kept segment when
one is available, is dropped at the root of a rooted path, and is kept in a
relative path that cannot pop further. -/
def cleanCore (rooted : Bool) : List String → List String → List String
  | stack, [] => stack.reverse
  | stack, s :: rest =>
    if s = "" ∨ s = "." then cleanCore rooted stack rest
    else if s = ".." then
      match stack with
      | [] => if rooted then cleanCore rooted [] rest else cleanCore rooted [".."] rest
      | t :: stack' =>
        if t = ".." then cleanCore rooted (".." :: t :: stack') rest
        else cleanCore rooted stack' rest
    else cleanCore rooted (s :: stack) rest

/-- Go `filepath.Clean` for slash-separated paths. -/
def clean (p : String) : String :=
  if p = "" then "."
  else
    let rooted := strStartsWith p "/"
    let segs := cleanCore rooted [] (segsOf p)
    let out := (if rooted then "/" else "") ++ joinSegs segs
    if out = "" then "." else out

/-- Go `filepath.Join`: drop empty elements, join with `/`, then `Clean`;
all-empty input yields `""`. -/
def joinPaths (elems : List String) : String :=
  match elems.filter (fun e => e ≠ "") with
  | [] => ""
  | l => clean (joinSegs l)

/-- Go `filepath.Base`: `"."` for the empty path, otherwise strip trailing
slashes and keep everything after the last remaining slash (`"/"` when
nothing remains). -/
def basename (p : String) : String :=
  if p = "" then "."
  else if p.data.reverse.dropWhile (fun c => c == '/') = [] then "/"
  else ⟨((p.data.reverse.dropWhile fun c => c == '/').takeWhile fun c => c != '/').reverse⟩

/-- Go `filepath.Dir`: everything up to and including the final slash,
cleaned. -/
def dirOf (p : String) : String :=
  clean ⟨(p.data.reverse.dropWhile fun c => c != '/').reverse⟩

/-! ### Data model (`wayback.go` lines 18–46) -/

/-- One capture record (source `Snapshot`, lines 33–36). -/
structure Snapshot where
  Timestamp : String
  Original : String
deriving DecidableEq

/-- The configuration fields of `WaybackDownloader` read by the functions
under study (lines 18–31); the index-query fields (`FromTimestamp`, …) only
shape the outbound index request and are not consumed by any claim. -/
structure Config where
  BaseURL : String
  Directory : String
  AllTimestamps : Bool
deriving DecidableEq

/-- The mutable downloader state: the `downloadedTimestamps` ledger (a
`map[string]bool` in the source, a list of marked timestamps here) and the
filesystem contents, most recent write first. -/
structure DState where
  downloadedTimestamps : List String
  files : List (String × String)
deriving DecidableEq

/-! ### URL parsing (`net/url.Parse` as used by the source) -/

/-- Models `net/url.Parse` restricted to absolute `http`/`https` URLs
without query or fragment, returning the only two fields the source reads:
`(Host, Path)`.  For a value with no such scheme prefix the model yields
`none`; the source in that situation gets a URL whose `Host` is empty,
which every caller treats the same way (filtered out / error). -/
def parseURL (s : String) : Option (String × String) :=
  if strStartsWith s "http://" then
    let rest := s.data.drop 7
    some (⟨rest.takeWhile fun c => c != '/'⟩, ⟨rest.dropWhile fun c => c != '/'⟩)
  else if strStartsWith s "https://" then
    let rest := s.data.drop 8
    some (⟨rest.takeWhile fun c => c != '/'⟩, ⟨rest.dropWhile fun c => c != '/'⟩)
  else none

/-! ### `getExtensionFromContentType` (lines 270–291) -/

/-- Source `getExtensionFromContentType`: map a declared Content-Type to a
file extension by substring tests, in source order; unrecognized types map
to `""`. -/
def getExtensionFromContentType (contentType : String) : String :=
  if strContains contentType "text/html" then ".html"
  else if strContains contentType "application/javascript" ||
      strContains contentType "text/javascript" then ".js"
  else if strContains contentType "text/css" then ".css"
  else if strContains contentType "image/jpeg" then ".jpg"
  else if strContains contentType "image/png" then ".png"
  else if strContains contentType "image/gif" then ".gif"
  else if strContains contentType "image/svg+xml" then ".svg"
  else if strContains contentType "application/json" then ".json"
  else ""

/-! ### The local-path computation of `downloadFile` (lines 157–178) -/

/-- The path mapping inside `downloadFile`: empty or `/` remote paths become
`index.html`; the full path is `Join(Directory, Host, Timestamp, path)`;
when the final component of the joined path has no `.`, the content-type
extension (or `.html` when that is empty) is appended. -/
def localPathFor (directory host timestamp urlPath contentType : String) : String :=
  let relativePath := if urlPath = "" ∨ urlPath = "/" then "index.html" else urlPath
  let fullPath := joinPaths [directory, host, timestamp, relativePath]
  if !(strContains (basename fullPath) ".") then
    let extension := getExtensionFromContentType contentType
    if extension ≠ "" then fullPath ++ extension else fullPath ++ ".html"
  else fullPath

/-! ### HTML documents and the effect environment -/

/-- A `golang.org/x/net/html` node: `node isElem attrs firstChild
nextSibling` mirrors `html.Node`'s element flag, attribute list and child /
sibling links; `nil` is the absent node. -/
inductive HNode where
  | nil : HNode
  | node (isElem : Bool) (attrs : List (String × String))
      (firstChild nextSibling : HNode) : HNode

/-- An HTTP response as the source reads it: status code, `Content-Type`
header and body. -/
structure HResp where
  status : Nat
  contentType : String
  body : String
deriving DecidableEq

/-- The effect environment: `fetch` models the blocking `http.Get` (`none`
is a transport error), `parseHTML` models `html.Parse` on file content. -/
structure Env where
  fetch : String → Option HResp
  parseHTML : String → Option HNode

/-- The per-item error taxonomy of `downloadFile` / `downloadRecursively`
(the distinct `fmt.Errorf` sites of lines 141–155, 217–226). -/
inductive DlError where
  | httpGet
  | httpStatus (status : Nat)
  | urlParse
  | openFile
  | parseHTML
deriving DecidableEq

/-- The retrieval URL built at line 138:
`https://web.archive.org/web/<timestamp>id_/<original>`. -/
def retrievalURL (snap : Snapshot) : String :=
  "https://web.archive.org/web/" ++ snap.Timestamp ++ "id_/" ++ snap.Original

/-! ### `downloadFile` (lines 130–200) -/

/-- Source `downloadFile`.  Returns the new state, the result, and the list
of URLs for which an HTTP GET was issued (the fetch trace).  A snapshot
whose `Timestamp` is in the `downloadedTimestamps` ledger returns `nil`
immediately without fetching; the ledger is never written here. -/
def downloadFile (cfg : Config) (env : Env) (st : DState) (snap : Snapshot) :
    DState × Except DlError Unit × List String :=
  if st.downloadedTimestamps.contains snap.Timestamp then (st, .ok (), [])
  else
    match env.fetch (retrievalURL snap) with
    | none => (st, .error .httpGet, [retrievalURL snap])
    | some resp =>
      if resp.status ≠ 200 then (st, .error (.httpStatus resp.status), [retrievalURL snap])
      else
        match parseURL snap.Original with
        | none => (st, .error .urlParse, [retrievalURL snap])
        | some hp =>
          ({ st with files :=
              (localPathFor cfg.Directory hp.1 snap.Timestamp hp.2 resp.contentType,
                resp.body) :: st.files },
            .ok (), [retrievalURL snap])

/-- Read a file from the model filesystem (latest write wins, matching
`os.Create` overwrite semantics). -/
def lookupFile (st : DState) (path : String) : Option String :=
  (st.files.find? fun f => f.1 = path).map Prod.snd

/-! ### Link collection inside `downloadRecursively` (lines 229–253) -/

/-- The attribute scan of the traversal closure `f` (lines 233–247): for
`src`/`href` values, a value with a leading `/` or `./` contributes
`strings.TrimPrefix(val, ".")`; a value with prefix `http` contributes its
URL path when its host equals the page host; everything else is skipped. -/
def attrURLs (pageHost : String) : List (String × String) → List String
  | [] => []
  | (k, v) :: rest =>
    let tail := attrURLs pageHost rest
    if k == "src" || k == "href" then
      if strStartsWith v "/" || strStartsWith v "./" then trimDot v :: tail
      else if strStartsWith v "http" then
        match parseURL v with
        | some hp => if hp.1 = pageHost then hp.2 :: tail else tail
        | none => tail
      else tail
    else tail

/-- The recursive traversal `f` of lines 231–253: pre-order over the node
tree, scanning attributes of element nodes only.  `html.Parse` returns a
root with no sibling, so walking the chain from the root equals `f(root)`. -/
def collectChain (pageHost : String) : HNode → List String
  | .nil => []
  | .node isElem attrs firstChild nextSibling =>
    (if isElem then attrURLs pageHost attrs else []) ++
      collectChain pageHost firstChild ++ collectChain pageHost nextSibling

/-- All `src`/`href` attribute values of a document, in traversal order:
the links a page carries, before any filtering. -/
def attrVals : List (String × String) → List String
  | [] => []
  | (k, v) :: rest =>
    if k == "src" || k == "href" then v :: attrVals rest else attrVals rest

/-- All link values (`src`/`href`) of the node chain, in traversal order. -/
def linkChain : HNode → List String
  | .nil => []
  | .node isElem attrs firstChild nextSibling =>
    (if isElem then attrVals attrs else []) ++
      linkChain firstChild ++ linkChain nextSibling

/-! ### `downloadRecursively` (lines 202–268) -/

/-- The path at which `downloadRecursively` looks for the saved page (lines
210–213): `Join(Directory, Host, Timestamp, Path)`, replaced by
`Join(Dir(fullPath), "index.html")` for an empty or `/` remote path.  (Note
this differs from the path `downloadFile` wrote to whenever the latter
appended an extension.) -/
def recursiveLookupPath (cfg : Config) (host path ts : String) : String :=
  let fullPath := joinPaths [cfg.Directory, host, ts, path]
  if path = "" ∨ path = "/" then joinPaths [dirOf fullPath, "index.html"] else fullPath

/-- The discovery phase of `downloadRecursively` (lines 215–253): when the
lookup path ends in `.html`, open it (error if absent), parse it (error on
parse failure) and collect candidate resource paths; otherwise nothing is
discovered. -/
def discoverPhase (cfg : Config) (env : Env) (st : DState) (host path ts : String) :
    Except DlError (List String) :=
  let fullPath := recursiveLookupPath cfg host path ts
  if strEndsWith fullPath ".html" then
    match lookupFile st fullPath with
    | none => .error .openFile
    | some content =>
      match env.parseHTML content with
      | none => .error .parseHTML
      | some doc => .ok (collectChain host doc)
  else .ok []

/-- The resource loop of lines 256–264: each discovered path is downloaded
via `downloadFile` as `Snapshot{Timestamp, BaseURL + u}`; per-resource
errors are only printed and do not stop the loop. -/
def downloadResources (cfg : Config) (env : Env) :
    DState → String → List String → DState × List String
  | st, _, [] => (st, [])
  | st, ts, u :: rest =>
    let r := downloadFile cfg env st { Timestamp := ts, Original := cfg.BaseURL ++ u }
    let r2 := downloadResources cfg env r.1 ts rest
    (r2.1, r.2.2 ++ r2.2)

/-- Source `downloadRecursively`: download the snapshot itself, then run the
discovery phase on the saved page and download each discovered resource
with plain `downloadFile` (which never parses HTML, so discovery is depth
one).  The `url.Parse` at line 209 cannot fail after a successful
`downloadFile` (which already parsed the same URL); the `none` arm is
unreachable there. -/
def downloadRecursively (cfg : Config) (env : Env) (st : DState) (snap : Snapshot) :
    DState × Except DlError Unit × List String :=
  match downloadFile cfg env st snap with
  | (st1, .error e, log) => (st1, .error e, log)
  | (st1, .ok _, log) =>
    match parseURL snap.Original with
    | none => (st1, .ok (), log)
    | some hp =>
      match discoverPhase cfg env st1 hp.1 hp.2 snap.Timestamp with
      | .error e => (st1, .error e, log)
      | .ok urls =>
        ((downloadResources cfg env st1 snap.Timestamp urls).1, .ok (),
          log ++ (downloadResources cfg env st1 snap.Timestamp urls).2)

/-! ### `downloadSnapshot` (lines 117–128) -/

/-- Marking a timestamp in the ledger (`w.downloadedTimestamps[ts] = true`
under the mutex); idempotent like the map assignment. -/
def markTimestamp (ts : String) (l : List String) : List String :=
  if l.contains ts then l else ts :: l

/-- Source `downloadSnapshot`: run `downloadRecursively`; on success, and
only when `AllTimestamps` is set, mark the snapshot's timestamp in the
ledger.  Errors are printed, not propagated. -/
def downloadSnapshot (cfg : Config) (env : Env) (st : DState) (snap : Snapshot) :
    DState × List String :=
  match downloadRecursively cfg env st snap with
  | (st1, .error _, log) => (st1, log)
  | (st1, .ok _, log) =>
    if cfg.AllTimestamps then
      ({ st1 with downloadedTimestamps := markTimestamp snap.Timestamp st1.downloadedTimestamps },
        log)
    else (st1, log)

/-! ### `getRawListFromAPI` response handling (lines 80–115) -/

/-- The observable shape of an index response body after `io.ReadAll`:
empty, not decodable as `[][]string`, or a decoded row list.  This stands
for the `json.Unmarshal` layer, whose outcome is the only thing the source
inspects. -/
inductive BodyShape where
  | empty : BodyShape
  | malformed : BodyShape
  | rows : List (List String) → BodyShape
deriving DecidableEq

/-- The outcome of the index HTTP call: transport failure (`http.Get`
error), body-read failure (`io.ReadAll` error), or a response carrying a
status code and a body. -/
inductive IndexNet where
  | transportFail : IndexNet
  | readFail (status : Nat) : IndexNet
  | response (status : Nat) (body : BodyShape) : IndexNet
deriving DecidableEq

/-- The distinct error strings produced by `getRawListFromAPI`
(lines 82, 88, 92, 97). -/
inductive IndexError where
  | transport
  | readBody
  | emptyBody
  | malformedBody
deriving DecidableEq

/-- The header-strip of lines 100–102: drop the first row exactly when it
exists, is non-empty, and its first cell is `"timestamp"`. -/
def stripHeader : List (List String) → List (List String)
  | (c :: cs) :: rest => if c = "timestamp" then rest else (c :: cs) :: rest
  | raw => raw

/-- The conversion loop of lines 104–112: rows with at least two cells
become `Snapshot{row[0], row[1]}`, in order; shorter rows are dropped. -/
def snapshotsOf : List (List String) → List Snapshot
  | [] => []
  | (a :: b :: _) :: rest => { Timestamp := a, Original := b } :: snapshotsOf rest
  | _ :: rest => snapshotsOf rest

/-- The response handling of `getRawListFromAPI` (lines 80–115).  Note that
the source never inspects `resp.StatusCode`: the status argument of
`response` is ignored. -/
def getRawListFromAPI : IndexNet → Except IndexError (List Snapshot)
  | .transportFail => .error .transport
  | .readFail _ => .error .readBody
  | .response _ .empty => .error .emptyBody
  | .response _ .malformed => .error .malformedBody
  | .response _ (.rows raw) => .ok (snapshotsOf (stripHeader raw))

/-! ### `main` (lines 293–328) -/

/-- What one run of `main` produces, observably: whether it aborted at the
index call, the per-snapshot results of the download loop, the trace of
fetched URLs, and the final ledger. -/
structure RunOutcome where
  aborted : Bool
  results : List (Snapshot × Except DlError Unit)
  fetchLog : List String
  finalLedger : List String

/-- The download loop of `main` (lines 320–325): call `downloadFile` on
each snapshot in order; an error is printed and the loop continues. -/
def runAll (cfg : Config) (env : Env) :
    DState → List Snapshot → DState × List (Snapshot × Except DlError Unit) × List String
  | st, [] => (st, [], [])
  | st, s :: rest =>
    let r := downloadFile cfg env st s
    let rr := runAll cfg env r.1 rest
    (rr.1, (s, r.2.1) :: rr.2.1, r.2.2 ++ rr.2.2)

/-- Source `main` after flag parsing: build a fresh downloader (empty
ledger, per `NewWaybackDownloader`), fetch the index (an error aborts
before any download), then run the loop. -/
def mainRun (cfg : Config) (env : Env) (idx : IndexNet) : RunOutcome :=
  match getRawListFromAPI idx with
  | .error _ => ⟨true, [], [], []⟩
  | .ok snaps =>
    let r := runAll cfg env ⟨[], []⟩ snaps
    ⟨false, r.2.1, r.2.2, r.1.downloadedTimestamps⟩

/-! ### Auxiliary definitions used by the theorem statements -/

/-- The segments `cleanCore` keeps when no `..` is around: empty and `.`
segments are dropped, everything else kept in order. -/
def keepSegs : List String → List String
  | [] => []
  | s :: rest => if s = "" ∨ s = "." then keepSegs rest else s :: keepSegs rest

/-- A well-behaved path segment: non-empty, not `.` or `..`, slash-free. -/
def normalSeg (s : String) : Prop :=
  s ≠ "" ∧ s ≠ "." ∧ s ≠ ".." ∧ ∀ c ∈ s.data, c ≠ '/'

instance (s : String) : Decidable (normalSeg s) := by
  unfold normalSeg; infer_instance

/-- How a collected candidate `u` is justified by a link value `v` of the
page: either `v` is site-relative (leading `/`) or dot-relative (leading
`./`) and `u` is `v` with a leading dot trimmed, or `v` is an absolute URL
whose host is the page host and `u` is its path. -/
def linkYields (pageHost v u : String) : Prop :=
  ((strStartsWith v "/" || strStartsWith v "./") = true ∧ u = trimDot v) ∨
  (strStartsWith v "http" = true ∧ parseURL v = some (pageHost, u))

/-- An environment with no reachable server and no parseable HTML. -/
def trivEnv : Env := ⟨fun _ => none, fun _ => none⟩

/-- Configuration for the concrete runs used in counterexamples and
witnesses: the defaults of `NewWaybackDownloader` with base URL
`http://example.com`. -/
def exCfg : Config := ⟨"http://example.com", "websites", false⟩

/-- Concrete environment for the duplicate-snapshot run: exactly one
archived resource exists. -/
def dupEnv : Env :=
  ⟨fun u =>
    if u = "https://web.archive.org/web/20200101120000id_/http://example.com/a.js" then
      some ⟨200, "text/javascript", "x"⟩
    else none,
    fun _ => none⟩

/-- Concrete index response listing the same `(timestamp, originalURL)` key
twice (after the header row). -/
def dupIndex : IndexNet :=
  .response 200 (.rows
    [["timestamp", "original"],
     ["20200101120000", "http://example.com/a.js"],
     ["20200101120000", "http://example.com/a.js"]])

/-- Configuration for the recursive-discovery run (base URL `http://h`). -/
def discCfg : Config := ⟨"http://h", "websites", false⟩

/-- Environment for the recursive-discovery run: every fetch succeeds with
an HTML page, and every parsed page carries one root-relative stylesheet
link. -/
def discEnv : Env :=
  ⟨fun _ => some ⟨200, "text/css", "B"⟩,
    fun _ => some (.node true [("href", "/style.css")] .nil .nil)⟩

/-- Top-level snapshot of the recursive-discovery run: an `.html` page, so
its saved path is parsed for resources. -/
def discSnap : Snapshot := ⟨"t", "http://h/page.html"⟩

/-! ## Lemma toolkit -/

theorem mk_data (s : String) : (⟨s.data⟩ : String) = s := rfl

theorem data_ne_nil (s : String) (h : s ≠ "") : s.data ≠ [] := by
  intro hd
  exact h (congrArg String.mk hd)

theorem ne_empty_of_data (s : String) (c : Char) (t : List Char)
    (h : s.data = c :: t) : s ≠ "" := by
  intro he
  rw [he] at h
  simp at h

theorem isPrefixOf_append_self (l t : List Char) : l.isPrefixOf (l ++ t) = true := by
  induction l with
  | nil => simp [List.isPrefixOf]
  | cons a as ih => simp [List.isPrefixOf, ih]

theorem singleton_isPrefixOf (a : Char) (l : List Char) :
    [a].isPrefixOf l = true ↔ ∃ t, l = a :: t := by
  cases l with
  | nil => simp [List.isPrefixOf]
  | cons b bs =>
    simp only [List.isPrefixOf, List.cons.injEq]
    constructor
    · intro h
      simp at h
      exact ⟨bs, h.symm ▸ rfl, rfl⟩
    · rintro ⟨t, hb, ht⟩
      simp [hb]

theorem isPrefixOf_head_ne (a b : Char) (pre l : List Char) (h : a ≠ b) :
    (a :: pre).isPrefixOf (b :: l) = false := by
  simp [List.isPrefixOf, h]

theorem takeWhile_append_stop (P : Char → Bool) (l r : List Char) (x : Char)
    (hl : ∀ c ∈ l, P c = true) (hx : P x = false) :
    (l ++ x :: r).takeWhile P = l := by
  induction l with
  | nil => simp [List.takeWhile, hx]
  | cons a as ih =>
    have ha : P a = true := hl a (by simp)
    simp only [List.cons_append, List.takeWhile_cons, ha, if_true]
    rw [ih fun c hc => hl c (by simp [hc])]

theorem dropWhile_append_stop (P : Char → Bool) (l r : List Char) (x : Char)
    (hl : ∀ c ∈ l, P c = true) (hx : P x = false) :
    (l ++ x :: r).dropWhile P = x :: r := by
  induction l with
  | nil => simp [List.dropWhile, hx]
  | cons a as ih =>
    have ha : P a = true := hl a (by simp)
    simp only [List.cons_append, List.dropWhile_cons, ha, if_true]
    exact ih fun c hc => hl c (by simp [hc])

theorem takeWhile_all (P : Char → Bool) (l : List Char) (hl : ∀ c ∈ l, P c = true) :
    l.takeWhile P = l := by
  induction l with
  | nil => rfl
  | cons a as ih =>
    have ha : P a = true := hl a (by simp)
    simp only [List.takeWhile_cons, ha, if_true]
    rw [ih fun c hc => hl c (by simp [hc])]

theorem dropWhile_all (P : Char → Bool) (l : List Char) (hl : ∀ c ∈ l, P c = true) :
    l.dropWhile P = [] := by
  induction l with
  | nil => rfl
  | cons a as ih =>
    have ha : P a = true := hl a (by simp)
    simp only [List.dropWhile_cons, ha, if_true]
    exact ih fun c hc => hl c (by simp [hc])

theorem hasSub_singleton (a : Char) (l : List Char) : hasSub [a] l = l.contains a := by
  induction l with
  | nil => rfl
  | cons b bs ih =>
    show ([a].isPrefixOf (b :: bs) || hasSub [a] bs) = (b :: bs).contains a
    rw [ih]
    simp only [List.isPrefixOf, Bool.and_true, List.contains_cons]

theorem strContains_dot (s : String) : strContains s "." = s.data.contains '.' := by
  unfold strContains
  exact hasSub_singleton '.' s.data

/-! ### Splitting and joining path segments -/

theorem splitOnChar_ne_nil (c : Char) (l : List Char) : splitOnChar c l ≠ [] := by
  cases l with
  | nil => simp [splitOnChar]
  | cons x xs =>
    simp only [splitOnChar]
    cases h : splitOnChar c xs with
    | nil => simp
    | cons y ys =>
      by_cases hx : x = c <;> simp [hx]

theorem splitOnChar_cons_sep (xs : List Char) :
    splitOnChar '/' ('/' :: xs) = [] :: splitOnChar '/' xs := by
  simp only [splitOnChar]
  cases h : splitOnChar '/' xs with
  | nil => exact absurd h (splitOnChar_ne_nil '/' xs)
  | cons y ys => simp

theorem splitOnChar_sep (xs ys : List Char) (h : ∀ c ∈ xs, c ≠ '/') :
    splitOnChar '/' (xs ++ '/' :: ys) = xs :: splitOnChar '/' ys := by
  induction xs with
  | nil =>
    simp only [List.nil_append]
    exact splitOnChar_cons_sep ys
  | cons a as ih =>
    have ha : a ≠ '/' := h a (by simp)
    have ih' := ih fun c hc => h c (by simp [hc])
    simp only [List.cons_append, splitOnChar, List.append_eq, ih', ha, if_false]

theorem splitOnChar_free (xs : List Char) (h : ∀ c ∈ xs, c ≠ '/') :
    splitOnChar '/' xs = [xs] := by
  induction xs with
  | nil => rfl
  | cons a as ih =>
    have ha : a ≠ '/' := h a (by simp)
    have ih' := ih fun c hc => h c (by simp [hc])
    simp only [splitOnChar, ih', ha, if_false]

theorem joinSegs_cons₂ (a b : String) (l : List String) :
    joinSegs (a :: b :: l) = a ++ "/" ++ joinSegs (b :: l) := rfl

theorem keepSegs_cons_normal (s : String) (l : List String)
    (h1 : s ≠ "") (h2 : s ≠ ".") : keepSegs (s :: l) = s :: keepSegs l := by
  simp [keepSegs, h1, h2]

theorem cleanCore_no_dotdot (rooted : Bool) (segs : List String) :
    ∀ stack : List String, (∀ s ∈ segs, s ≠ "..") →
      cleanCore rooted stack segs = stack.reverse ++ keepSegs segs := by
  induction segs with
  | nil => intro stack _; simp [cleanCore, keepSegs]
  | cons s rest ih =>
    intro stack h
    have hs : s ≠ ".." := h s (by simp)
    have h' : ∀ t ∈ rest, t ≠ ".." := fun t ht => h t (by simp [ht])
    by_cases he : s = "" ∨ s = "."
    · simp only [cleanCore, he, if_true, keepSegs]
      rw [ih stack h']
    · simp only [cleanCore, he, if_false, hs, if_false, keepSegs]
      rw [ih (s :: stack) h']
      simp

/-! ### Facts about `clean`, `joinPaths` and `basename` -/

theorem segsOf_join4 (dir host ts p : String)
    (hd : ∀ c ∈ dir.data, c ≠ '/') (hh : ∀ c ∈ host.data, c ≠ '/')
    (ht : ∀ c ∈ ts.data, c ≠ '/') :
    segsOf (joinSegs [dir, host, ts, p]) = dir :: host :: ts :: segsOf p := by
  have hdata : (joinSegs [dir, host, ts, p]).data =
      dir.data ++ '/' :: (host.data ++ '/' :: (ts.data ++ '/' :: p.data)) := by
    show (dir ++ "/" ++ (host ++ "/" ++ (ts ++ "/" ++ p))).data = _
    simp [String.data_append]
  unfold segsOf
  rw [hdata, splitOnChar_sep _ _ hd, splitOnChar_sep _ _ hh, splitOnChar_sep _ _ ht]
  simp [mk_data]

theorem string_append_data_ne (a : String) (ha : a.data ≠ []) (b : String) :
    a ++ b ≠ "" := by
  intro h
  have := congrArg String.data h
  rw [String.data_append] at this
  simp at this
  exact ha this.1

theorem strStartsWith_slash_false (s : String) (c : Char) (t : List Char)
    (hdata : s.data = c :: t) (hc : c ≠ '/') : strStartsWith s "/" = false := by
  unfold strStartsWith
  rw [hdata]
  exact isPrefixOf_head_ne '/' c [] t (Ne.symm hc)

theorem joinPaths_eq_clean (elems : List String)
    (h : elems.filter (fun e => e ≠ "") = elems) (hne : elems ≠ []) :
    joinPaths elems = clean (joinSegs elems) := by
  unfold joinPaths
  rw [h]
  cases elems with
  | nil => exact absurd rfl hne
  | cons a l => rfl

theorem joinPaths_normal (dir host ts p : String)
    (hd : normalSeg dir) (hh : normalSeg host) (ht : normalSeg ts)
    (hp : p ≠ "") (hpd : ∀ s ∈ segsOf p, s ≠ "..") :
    joinPaths [dir, host, ts, p] = joinSegs (dir :: host :: ts :: keepSegs (segsOf p)) := by
  obtain ⟨hd1, hd2, hd3, hd4⟩ := hd
  obtain ⟨hh1, hh2, hh3, hh4⟩ := hh
  obtain ⟨ht1, ht2, ht3, ht4⟩ := ht
  have hfilter : [dir, host, ts, p].filter (fun e => e ≠ "") = [dir, host, ts, p] := by
    simp [List.filter, hd1, hh1, ht1, hp]
  rw [joinPaths_eq_clean [dir, host, ts, p] hfilter (by simp)]
  obtain ⟨c, t, hct⟩ : ∃ c t, dir.data = c :: t := by
    cases hcd : dir.data with
    | nil => exact absurd hcd (data_ne_nil dir hd1)
    | cons c t => exact ⟨c, t, rfl⟩
  have hjoined_data : (joinSegs [dir, host, ts, p]).data =
      c :: (t ++ '/' :: (host.data ++ '/' :: (ts.data ++ '/' :: p.data))) := by
    show (dir ++ "/" ++ (host ++ "/" ++ (ts ++ "/" ++ p))).data = _
    simp [String.data_append, hct]
  have hne : joinSegs [dir, host, ts, p] ≠ "" :=
    ne_empty_of_data _ _ _ hjoined_data
  have hcslash : c ≠ '/' := hd4 c (by rw [hct]; simp)
  have hrooted : strStartsWith (joinSegs [dir, host, ts, p]) "/" = false :=
    strStartsWith_slash_false _ c _ hjoined_data hcslash
  have hnodd : ∀ s ∈ dir :: host :: ts :: segsOf p, s ≠ ".." := by
    intro s hs
    simp only [List.mem_cons] at hs
    rcases hs with rfl | rfl | rfl | hs
    · exact hd3
    · exact hh3
    · exact ht3
    · exact hpd s hs
  have houtne : joinSegs (dir :: host :: ts :: keepSegs (segsOf p)) ≠ "" := by
    rw [joinSegs_cons₂]
    have hd' : (dir ++ "/").data ≠ [] := by
      rw [String.data_append, hct]; simp
    exact string_append_data_ne _ hd' _
  unfold clean
  rw [if_neg hne]
  simp only [hrooted, Bool.false_eq_true, if_false]
  rw [segsOf_join4 dir host ts p hd4 hh4 ht4, cleanCore_no_dotdot false _ [] hnodd]
  simp only [List.reverse_nil, List.nil_append]
  rw [keepSegs_cons_normal dir _ hd1 hd2, keepSegs_cons_normal host _ hh1 hh2,
    keepSegs_cons_normal ts _ ht1 ht2]
  have hout : ("" : String) ++ joinSegs (dir :: host :: ts :: keepSegs (segsOf p)) =
      joinSegs (dir :: host :: ts :: keepSegs (segsOf p)) := rfl
  rw [hout, if_neg houtne]

theorem basename_tail (xs ys : List Char) (hys : ys ≠ [])
    (hfree : ∀ c ∈ ys, c ≠ '/') : basename ⟨xs ++ '/' :: ys⟩ = ⟨ys⟩ := by
  obtain ⟨b, t, hbt⟩ : ∃ b t, ys.reverse = b :: t := by
    cases hr : ys.reverse with
    | nil => exact absurd (by simpa using hr) hys
    | cons b t => exact ⟨b, t, rfl⟩
  have hb : b ∈ ys := by
    have : b ∈ ys.reverse := by rw [hbt]; simp
    simpa using this
  have hbslash : (b == '/') = false := by
    simp [hfree b hb]
  have hrev : (xs ++ '/' :: ys).reverse = b :: (t ++ '/' :: xs.reverse) := by
    rw [List.reverse_append, List.reverse_cons, hbt]
    simp
  have hne : (⟨xs ++ '/' :: ys⟩ : String) ≠ "" := by
    intro h
    have := congrArg String.data h
    simp at this
  have hdrop : (b :: (t ++ '/' :: xs.reverse)).dropWhile (fun c => c == '/') =
      b :: (t ++ '/' :: xs.reverse) := by
    simp [List.dropWhile_cons, hbslash]
  have htfree : ∀ c ∈ t, ((fun c => c != '/') c) = true := by
    intro c hc
    have hc1 : c ∈ ys.reverse := by rw [hbt]; simp [hc]
    have hc2 : c ∈ ys := by simpa using hc1
    simp [hfree c hc2]
  have htake : (b :: (t ++ '/' :: xs.reverse)).takeWhile (fun c => c != '/') =
      b :: t := by
    rw [List.takeWhile_cons]
    have hbne : (b != '/') = true := by simp [hfree b hb]
    rw [if_pos hbne]
    rw [takeWhile_append_stop _ t xs.reverse '/' htfree (by simp)]
  have hys : (b :: t).reverse = ys := by
    have := congrArg List.reverse hbt
    simpa using this.symm
  unfold basename
  rw [if_neg hne]
  have hdata : (⟨xs ++ '/' :: ys⟩ : String).data = xs ++ '/' :: ys := rfl
  rw [hdata, hrev, hdrop]
  rw [if_neg (List.cons_ne_nil b (t ++ '/' :: xs.reverse))]
  rw [htake, hys]

theorem basename_last (x seg : String) (h : seg ≠ "")
    (hfree : ∀ c ∈ seg.data, c ≠ '/') : basename (x ++ "/" ++ seg) = seg := by
  have hdata : (x ++ "/" ++ seg) = (⟨x.data ++ '/' :: seg.data⟩ : String) := by
    apply congrArg String.mk
    show (x ++ "/" ++ seg).data = _
    simp [String.data_append]
  rw [hdata, basename_tail x.data seg.data (data_ne_nil seg h) hfree, mk_data]

theorem basename_join4 (dir host ts seg : String) (h : seg ≠ "")
    (hfree : ∀ c ∈ seg.data, c ≠ '/') :
    basename (joinSegs [dir, host, ts, seg]) = seg := by
  have hassoc : joinSegs [dir, host, ts, seg] = (dir ++ "/" ++ host ++ "/" ++ ts) ++ "/" ++ seg := by
    show dir ++ "/" ++ (host ++ "/" ++ (ts ++ "/" ++ seg)) = _
    simp [String.append_assoc]
  rw [hassoc, basename_last _ seg h hfree]

/-! ### `parseURL` on well-formed absolute URLs -/

theorem parseURL_http (h p : String) (hfree : ∀ c ∈ h.data, c ≠ '/')
    (hp : strStartsWith p "/" = true ∨ p = "") :
    parseURL ("http://" ++ h ++ p) = some (h, p) := by
  have hpre : strStartsWith ("http://" ++ h ++ p) "http://" = true := by
    unfold strStartsWith
    have : ("http://" ++ h ++ p).data = "http://".data ++ (h.data ++ p.data) := by
      simp [String.data_append]
    rw [this]
    exact isPrefixOf_append_self _ _
  have hdata : ("http://" ++ h ++ p).data = "http://".data ++ (h.data ++ p.data) := by
    simp [String.data_append]
  have hdrop : ("http://" ++ h ++ p).data.drop 7 = h.data ++ p.data := by
    rw [hdata]
    have h7 : ("http://".data).length = 7 := rfl
    rw [show (7 : Nat) = ("http://".data).length from rfl]
    exact List.drop_left _ _
  have hallh : ∀ c ∈ h.data, ((fun c => c != '/') c) = true := by
    intro c hc; simp [hfree c hc]
  unfold parseURL
  rw [hpre]
  simp only [if_true, hdrop]
  rcases hp with hp | hp
  · obtain ⟨t, ht⟩ := (singleton_isPrefixOf '/' p.data).mp hp
    rw [ht]
    rw [takeWhile_append_stop _ h.data t '/' hallh (by simp),
      dropWhile_append_stop _ h.data t '/' hallh (by simp)]
    have hpt : (⟨'/' :: t⟩ : String) = p := by rw [← ht, mk_data]
    rw [hpt]
  · subst hp
    simp only [show ("" : String).data = ([] : List Char) from rfl, List.append_nil]
    rw [takeWhile_all _ h.data hallh, dropWhile_all _ h.data hallh]

/-! ### Behavioural helper lemmas about the program model -/

theorem downloadFile_skip (cfg : Config) (env : Env) (st : DState) (snap : Snapshot)
    (h : st.downloadedTimestamps.contains snap.Timestamp = true) :
    downloadFile cfg env st snap = (st, .ok (), []) := by
  unfold downloadFile
  rw [if_pos h]

theorem downloadFile_ledger (cfg : Config) (env : Env) (st : DState) (snap : Snapshot) :
    (downloadFile cfg env st snap).1.downloadedTimestamps = st.downloadedTimestamps := by
  unfold downloadFile
  repeat' first
  | rfl
  | split

theorem downloadFile_log (cfg : Config) (env : Env) (st : DState) (snap : Snapshot) :
    ∀ u ∈ (downloadFile cfg env st snap).2.2, u = retrievalURL snap := by
  intro u hu
  unfold downloadFile at hu
  repeat' split at hu
  all_goals simp_all

theorem downloadFile_fresh (cfg : Config) (env : Env) (st : DState) (snap : Snapshot)
    (h : st.downloadedTimestamps = []) :
    (downloadFile cfg env st snap).2.2 = [retrievalURL snap] := by
  unfold downloadFile
  rw [h, if_neg (by simp)]
  repeat' first
  | rfl
  | split

theorem runAll_results_map (cfg : Config) (env : Env) (l : List Snapshot) :
    ∀ st : DState, (runAll cfg env st l).2.1.map Prod.fst = l := by
  induction l with
  | nil => intro st; rfl
  | cons s rest ih =>
    intro st
    simp only [runAll, List.map_cons, ih, List.cons.injEq]

theorem runAll_fresh (cfg : Config) (env : Env) (l : List Snapshot) :
    ∀ st : DState, st.downloadedTimestamps = [] →
      (runAll cfg env st l).1.downloadedTimestamps = [] ∧
      (runAll cfg env st l).2.2 = l.map retrievalURL := by
  induction l with
  | nil => intro st h; exact ⟨h, rfl⟩
  | cons s rest ih =>
    intro st h
    have h1 : (downloadFile cfg env st s).1.downloadedTimestamps = [] := by
      rw [downloadFile_ledger]; exact h
    have ihr := ih (downloadFile cfg env st s).1 h1
    constructor
    · show (runAll cfg env (downloadFile cfg env st s).1 rest).1.downloadedTimestamps = []
      exact ihr.1
    · show (downloadFile cfg env st s).2.2 ++
        (runAll cfg env (downloadFile cfg env st s).1 rest).2.2 = _
      rw [downloadFile_fresh cfg env st s h, ihr.2]
      rfl

theorem downloadResources_sound (cfg : Config) (env : Env) (ts : String)
    (urls : List String) :
    ∀ (st : DState) (u : String), u ∈ (downloadResources cfg env st ts urls).2 →
      ∃ r ∈ urls, u = retrievalURL ⟨ts, cfg.BaseURL ++ r⟩ := by
  induction urls with
  | nil => intro st u hu; simp [downloadResources] at hu
  | cons r rest ih =>
    intro st u hu
    simp only [downloadResources, List.mem_append] at hu
    rcases hu with hu | hu
    · exact ⟨r, by simp, downloadFile_log cfg env st _ u hu⟩
    · obtain ⟨r', hr', hu'⟩ := ih _ u hu
      exact ⟨r', by simp [hr'], hu'⟩

/-! ### Link collection: soundness and single-link computations -/

theorem attrURLs_sound (pageHost : String) (attrs : List (String × String)) :
    ∀ u ∈ attrURLs pageHost attrs, ∃ v ∈ attrVals attrs, linkYields pageHost v u := by
  induction attrs with
  | nil => intro u hu; simp [attrURLs] at hu
  | cons kv rest ih =>
    obtain ⟨k, v⟩ := kv
    intro u hu
    simp only [attrURLs] at hu
    by_cases hk : (k == "src" || k == "href") = true
    · rw [if_pos hk] at hu
      have hvals : attrVals ((k, v) :: rest) = v :: attrVals rest := by
        simp only [attrVals, hk, if_true]
      by_cases h1 : (strStartsWith v "/" || strStartsWith v "./") = true
      · rw [if_pos h1] at hu
        rcases List.mem_cons.mp hu with rfl | hu2
        · exact ⟨v, by rw [hvals]; simp, Or.inl ⟨h1, rfl⟩⟩
        · obtain ⟨v', hv', hy⟩ := ih u hu2
          exact ⟨v', by rw [hvals]; simp [hv'], hy⟩
      · rw [if_neg h1] at hu
        by_cases h2 : strStartsWith v "http" = true
        · rw [if_pos h2] at hu
          cases hp : parseURL v with
          | none =>
            rw [hp] at hu
            obtain ⟨v', hv', hy⟩ := ih u hu
            exact ⟨v', by rw [hvals]; simp [hv'], hy⟩
          | some q =>
            rw [hp] at hu
            have hu' : u ∈ if q.1 = pageHost then q.2 :: attrURLs pageHost rest
                else attrURLs pageHost rest := hu
            by_cases hq : q.1 = pageHost
            · rw [if_pos hq] at hu'
              rcases List.mem_cons.mp hu' with rfl | hu2
              · refine ⟨v, by rw [hvals]; simp, Or.inr ⟨h2, ?_⟩⟩
                rw [hp, ← hq, Prod.mk.eta]
              · obtain ⟨v', hv', hy⟩ := ih u hu2
                exact ⟨v', by rw [hvals]; simp [hv'], hy⟩
            · rw [if_neg hq] at hu'
              obtain ⟨v', hv', hy⟩ := ih u hu'
              exact ⟨v', by rw [hvals]; simp [hv'], hy⟩
        · rw [if_neg h2] at hu
          obtain ⟨v', hv', hy⟩ := ih u hu
          exact ⟨v', by rw [hvals]; simp [hv'], hy⟩
    · rw [if_neg hk] at hu
      have hvals : attrVals ((k, v) :: rest) = attrVals rest := by
        simp [attrVals, hk]
      obtain ⟨v', hv', hy⟩ := ih u hu
      exact ⟨v', by rw [hvals]; exact hv', hy⟩

theorem collectChain_sound (pageHost : String) (doc : HNode) :
    ∀ u ∈ collectChain pageHost doc, ∃ v ∈ linkChain doc, linkYields pageHost v u := by
  induction doc with
  | nil => intro u hu; simp [collectChain] at hu
  | node isElem attrs fc ns ihf ihn =>
    intro u hu
    simp only [collectChain, List.mem_append] at hu
    rcases hu with (hu | hu) | hu
    · cases isElem with
      | false => simp at hu
      | true =>
        simp only [if_true] at hu
        obtain ⟨v, hv, hy⟩ := attrURLs_sound pageHost attrs u hu
        exact ⟨v, by simp [linkChain, hv], hy⟩
    · obtain ⟨v, hv, hy⟩ := ihf u hu
      exact ⟨v, by simp [linkChain, hv], hy⟩
    · obtain ⟨v, hv, hy⟩ := ihn u hu
      exact ⟨v, by simp [linkChain, hv], hy⟩

theorem prefix_facts_http (h p : String) :
    strStartsWith ("http://" ++ h ++ p) "/" = false ∧
    strStartsWith ("http://" ++ h ++ p) "./" = false ∧
    strStartsWith ("http://" ++ h ++ p) "http" = true := by
  have hd : ("http://" ++ h ++ p).data =
      'h' :: 't' :: 't' :: 'p' :: ':' :: '/' :: '/' :: (h.data ++ p.data) := by
    rw [String.data_append, String.data_append]
    rw [show ("http://" : String).data = ['h', 't', 't', 'p', ':', '/', '/'] from rfl]
    simp
  refine ⟨?_, ?_, ?_⟩
  · unfold strStartsWith
    rw [show ("/" : String).data = ['/'] from rfl, hd]
    exact isPrefixOf_head_ne '/' 'h' [] _ (by decide)
  · unfold strStartsWith
    rw [show ("./" : String).data = ['.', '/'] from rfl, hd]
    exact isPrefixOf_head_ne '.' 'h' ['/'] _ (by decide)
  · unfold strStartsWith
    rw [show ("http" : String).data = ['h', 't', 't', 'p'] from rfl, hd]
    simp [List.isPrefixOf]

theorem trimDot_slash (p : String) (hp : strStartsWith p "/" = true) : trimDot p = p := by
  obtain ⟨t, ht⟩ := (singleton_isPrefixOf '/' p.data).mp hp
  have hdot : strStartsWith p "." = false := by
    unfold strStartsWith
    rw [show ("." : String).data = ['.'] from rfl, ht]
    exact isPrefixOf_head_ne '.' '/' [] t (by decide)
  simp [trimDot, hdot]

theorem attrURLs_single_rel (pageHost p : String) (hp : strStartsWith p "/" = true) :
    attrURLs pageHost [("href", p)] = [p] := by
  simp only [attrURLs]
  rw [if_pos (by decide), if_pos (by rw [hp]; rfl), trimDot_slash p hp]

theorem attrURLs_single_abs (pageHost h p : String) (hfree : ∀ c ∈ h.data, c ≠ '/')
    (hp : strStartsWith p "/" = true) :
    attrURLs pageHost [("href", "http://" ++ h ++ p)] =
      if h = pageHost then [p] else [] := by
  obtain ⟨f1, f2, f3⟩ := prefix_facts_http h p
  simp only [attrURLs]
  rw [if_pos (by decide)]
  rw [if_neg (by rw [f1, f2]; simp)]
  rw [if_pos f3]
  rw [parseURL_http h p hfree (Or.inl hp)]

theorem collectChain_single (pageHost : String) (attrs : List (String × String)) :
    collectChain pageHost (.node true attrs .nil .nil) = attrURLs pageHost attrs := by
  simp [collectChain]

theorem snapshotsOf_wellformed (raw : List (List String))
    (h : ∀ row ∈ raw, 2 ≤ row.length) :
    snapshotsOf raw = raw.map fun row => ⟨row.getD 0 "", row.getD 1 ""⟩ := by
  induction raw with
  | nil => rfl
  | cons row rest ih =>
    have h2 : 2 ≤ row.length := h row (by simp)
    have ih' := ih fun r hr => h r (by simp [hr])
    cases row with
    | nil => simp at h2
    | cons a t =>
      cases t with
      | nil => simp at h2
      | cons b t' =>
        simp [snapshotsOf, ih', List.getD]

theorem localPathFor_index (dir host ts ct p : String)
    (hd : normalSeg dir) (hh : normalSeg host) (ht : normalSeg ts)
    (hp : p = "" ∨ p = "/") :
    localPathFor dir host ts p ct = joinSegs [dir, host, ts, "index.html"] := by
  have hjoin : joinPaths [dir, host, ts, "index.html"] =
      joinSegs (dir :: host :: ts :: keepSegs (segsOf "index.html")) :=
    joinPaths_normal dir host ts "index.html" hd hh ht (by decide) (by decide)
  rw [show keepSegs (segsOf "index.html") = ["index.html"] from by decide] at hjoin
  have hbase : basename (joinSegs [dir, host, ts, "index.html"]) = "index.html" :=
    basename_join4 dir host ts "index.html" (by decide) (by decide)
  simp only [localPathFor]
  rw [if_pos hp, hjoin, hbase,
    show strContains "index.html" "." = true from by decide]
  simp

theorem localPathFor_dirstyle (dir host ts seg ct : String)
    (hd : normalSeg dir) (hh : normalSeg host) (ht : normalSeg ts) (hs : normalSeg seg)
    (hdot : seg.data.contains '.' = false) :
    localPathFor dir host ts ("/" ++ seg ++ "/") ct =
      joinSegs [dir, host, ts, seg] ++
        (if getExtensionFromContentType ct = "" then ".html"
          else getExtensionFromContentType ct) := by
  obtain ⟨hs1, hs2, hs3, hs4⟩ := hs
  have hpdata : ("/" ++ seg ++ "/").data = '/' :: (seg.data ++ ['/']) := by
    simp [String.data_append]
  have hpne : ("/" ++ seg ++ "/") ≠ "" := ne_empty_of_data _ _ _ hpdata
  have hpslash : ("/" ++ seg ++ "/") ≠ "/" := by
    intro h
    have hda := congrArg String.data h
    rw [hpdata, show ("/" : String).data = ['/'] from rfl] at hda
    simp at hda
  have hsegseq : segsOf ("/" ++ seg ++ "/") = ["", seg, ""] := by
    unfold segsOf
    rw [hpdata, splitOnChar_cons_sep, splitOnChar_sep seg.data [] hs4]
    simp [splitOnChar, mk_data]
  have hjoin : joinPaths [dir, host, ts, "/" ++ seg ++ "/"] =
      joinSegs [dir, host, ts, seg] := by
    have hdd : ∀ s ∈ segsOf ("/" ++ seg ++ "/"), s ≠ ".." := by
      rw [hsegseq]
      intro s hsm
      rcases List.mem_cons.mp hsm with rfl | hsm
      · decide
      · rcases List.mem_cons.mp hsm with rfl | hsm
        · exact hs3
        · rcases List.mem_cons.mp hsm with rfl | hsm
          · decide
          · simp at hsm
    rw [joinPaths_normal dir host ts _ hd hh ht hpne hdd, hsegseq]
    rw [show keepSegs ["", seg, ""] = [seg] from by simp [keepSegs, hs1, hs2]]
  have hnoext : strContains (basename (joinSegs [dir, host, ts, seg])) "." = false := by
    rw [basename_join4 dir host ts seg hs1 hs4, strContains_dot, hdot]
  simp only [localPathFor]
  have hrel : (if ("/" ++ seg ++ "/" = "" ∨ "/" ++ seg ++ "/" = "/") then "index.html"
      else "/" ++ seg ++ "/") = "/" ++ seg ++ "/" :=
    if_neg (by push_neg; exact ⟨hpne, hpslash⟩)
  rw [hrel, hjoin, hnoext]
  simp only [Bool.not_false, if_true]
  by_cases he : getExtensionFromContentType ct = "" <;> simp [he]

/-! ## Claim theorems -/

/-- C1 counterexample: a run from the entrypoint over an index that lists
the same `(timestamp, originalURL)` key twice fetches that key twice — the
retrieval URL of the duplicated key appears twice in the fetch trace,
refuting "each unique claim key is fetched at most once". -/
theorem c1_duplicate_key_fetched_twice :
    (mainRun exCfg dupEnv dupIndex).fetchLog.count
      "https://web.archive.org/web/20200101120000id_/http://example.com/a.js" = 2 := by
  decide

/-- C1 (amended): the claim key is the snapshot's timestamp alone, in every
mode — (i) a snapshot whose timestamp is in the ledger is skipped with no
fetch and no state change; (ii) `downloadFile` itself never writes the
ledger; (iii) the ledger is marked (idempotently) only by
`downloadSnapshot` after a fully successful recursive download and only in
all-timestamps mode; (iv) with `AllTimestamps` unset nothing is ever
marked. -/
theorem c1_timestamp_only_ledger :
    (∀ (cfg : Config) (env : Env) (st : DState) (snap : Snapshot),
      st.downloadedTimestamps.contains snap.Timestamp = true →
      downloadFile cfg env st snap = (st, .ok (), [])) ∧
    (∀ (cfg : Config) (env : Env) (st : DState) (snap : Snapshot),
      (downloadFile cfg env st snap).1.downloadedTimestamps = st.downloadedTimestamps) ∧
    (∀ (cfg : Config) (env : Env) (st : DState) (snap : Snapshot)
        (st1 : DState) (log : List String), cfg.AllTimestamps = true →
      downloadRecursively cfg env st snap = (st1, .ok (), log) →
      (downloadSnapshot cfg env st snap).1.downloadedTimestamps =
        markTimestamp snap.Timestamp st1.downloadedTimestamps) ∧
    (∀ (cfg : Config) (env : Env) (st : DState) (snap : Snapshot)
        (st1 : DState) (log : List String), cfg.AllTimestamps = false →
      downloadRecursively cfg env st snap = (st1, .ok (), log) →
      (downloadSnapshot cfg env st snap).1 = st1) := by
  refine ⟨downloadFile_skip, downloadFile_ledger, ?_, ?_⟩
  · intro cfg env st snap st1 log h1 hrec
    simp only [downloadSnapshot, hrec, h1, if_true]
  · intro cfg env st snap st1 log h1 hrec
    simp only [downloadSnapshot, hrec, h1, Bool.false_eq_true, if_false]

/-- C1 witness: the amended claim instantiated — a snapshot whose timestamp
`"t"` is already in the ledger is skipped unchanged, and a successful
all-timestamps `downloadSnapshot` marks the timestamp. -/
theorem c1_timestamp_only_ledger_witness :
    downloadFile exCfg trivEnv ⟨["t"], []⟩ ⟨"t", "u"⟩ = (⟨["t"], []⟩, .ok (), []) ∧
    (downloadSnapshot ⟨"http://h", "websites", true⟩ trivEnv ⟨["t"], []⟩
        ⟨"t", "http://h/x.css"⟩).1.downloadedTimestamps =
      markTimestamp "t" ["t"] :=
  ⟨c1_timestamp_only_ledger.1 exCfg trivEnv ⟨["t"], []⟩ ⟨"t", "u"⟩ (by decide),
    c1_timestamp_only_ledger.2.2.1 ⟨"http://h", "websites", true⟩ trivEnv ⟨["t"], []⟩
      ⟨"t", "http://h/x.css"⟩ ⟨["t"], []⟩ [] rfl rfl⟩

/-- C2 (code bug evaluated): mapping the remote path
`/../../../../etc/passwd` of host `example.com` at timestamp
`20200101120000` under output root `websites` yields `../etc/passwd.html`
— the `..` segments are followed by the path cleaning inside
`filepath.Join`, and the resulting path escapes the output root (it does
not start with the output directory). -/
theorem c2_traversal_escapes_root :
    localPathFor "websites" "example.com" "20200101120000"
        "/../../../../etc/passwd" "text/html" = "../etc/passwd.html" ∧
    strStartsWith "../etc/passwd.html" "websites" = false := by
  exact ⟨by decide, by decide⟩

/-- C3 counterexample: a parsed body holding the single row
`["20200101120000"]` has no header row to strip, yet produces zero
snapshots — one remaining row, zero converted rows — refuting "preserves
the order and count of the remaining rows". -/
theorem c3_short_row_dropped :
    getRawListFromAPI (.response 200 (.rows [["20200101120000"]])) = .ok [] ∧
    stripHeader [["20200101120000"]] = [["20200101120000"]] :=
  ⟨rfl, rfl⟩

/-- C3 (amended): the header row is stripped exactly when the first row's
first cell is `"timestamp"`; the remaining rows are converted in order,
dropping rows with fewer than two cells (so order and count are preserved
whenever every remaining row has at least two cells); a malformed
(non-array) body is a format error with no partial data. -/
theorem c3_header_strip_and_rows :
    (∀ (cs : List String) (rest : List (List String)),
      stripHeader (("timestamp" :: cs) :: rest) = rest) ∧
    (∀ (c : String) (cs : List String) (rest : List (List String)),
      c ≠ "timestamp" → stripHeader ((c :: cs) :: rest) = (c :: cs) :: rest) ∧
    (stripHeader [] = [] ∧ ∀ rest : List (List String),
      stripHeader ([] :: rest) = [] :: rest) ∧
    (∀ raw : List (List String), (∀ row ∈ raw, 2 ≤ row.length) →
      snapshotsOf raw = (raw.map fun row => ⟨row.getD 0 "", row.getD 1 ""⟩) ∧
      (snapshotsOf raw).length = raw.length) ∧
    (∀ s : Nat, getRawListFromAPI (.response s .malformed) = .error .malformedBody) ∧
    (∀ (s : Nat) (raw : List (List String)),
      getRawListFromAPI (.response s (.rows raw)) = .ok (snapshotsOf (stripHeader raw))) := by
  refine ⟨?_, ?_, ⟨rfl, fun rest => rfl⟩, ?_, fun s => rfl, fun s raw => rfl⟩
  · intro cs rest
    simp [stripHeader]
  · intro c cs rest h
    simp [stripHeader, h]
  · intro raw h
    refine ⟨snapshotsOf_wellformed raw h, ?_⟩
    rw [snapshotsOf_wellformed raw h, List.length_map]

/-- C3 witness: the amended claim instantiated — a non-header first row is
kept, and a two-rows-of-two-cells body converts to two snapshots in
order. -/
theorem c3_header_strip_and_rows_witness :
    stripHeader [["20200101120000", "u"]] = [["20200101120000", "u"]] ∧
    snapshotsOf [["a", "b", "x"], ["c", "d"]] =
      [⟨"a", "b"⟩, ⟨"c", "d"⟩] ∧
    (snapshotsOf [["a", "b", "x"], ["c", "d"]]).length = 2 :=
  ⟨c3_header_strip_and_rows.2.1 "20200101120000" ["u"] [] (by decide),
    (c3_header_strip_and_rows.2.2.2.1 [["a", "b", "x"], ["c", "d"]] (by decide)).1,
    (c3_header_strip_and_rows.2.2.2.1 [["a", "b", "x"], ["c", "d"]] (by decide)).2⟩

/-- C4 counterexample: an index response with status 500 and a well-formed
empty JSON array is treated as success (`.ok []`) — the non-success status
is not surfaced as an error, refuting the claim. -/
theorem c4_status_ignored_counterexample :
    getRawListFromAPI (.response 500 (.rows [])) = .ok [] := rfl

/-- C5 counterexample: the directory-style remote path `/about/` maps to
`.../about.html` — the trailing slash is stripped and `.html` is appended
to the component itself — not to `.../about/index.html` as the claim's
"index.html is appended as the leaf" requires. -/
theorem c5_trailing_slash_counterexample :
    localPathFor "websites" "example.com" "20200101120000" "/about/" "text/html" =
      "websites/example.com/20200101120000/about.html" ∧
    localPathFor "websites" "example.com" "20200101120000" "/about/" "text/html" ≠
      "websites/example.com/20200101120000/about/index.html" :=
  ⟨by decide, by decide⟩

/-- C5 (amended): an empty or `/` remote path gets `index.html` as its
leaf; otherwise a trailing slash is stripped by the path cleaning and, when
the remaining final component has no `.`, the content-type extension
(default `.html`) is appended directly to that component — no `index.html`
leaf is added for directory-style paths. -/
theorem c5_leaf_mapping :
    (∀ (dir host ts ct p : String), normalSeg dir → normalSeg host → normalSeg ts →
      p = "" ∨ p = "/" →
      localPathFor dir host ts p ct = joinSegs [dir, host, ts, "index.html"]) ∧
    (∀ dir host ts seg ct : String,
      normalSeg dir → normalSeg host → normalSeg ts → normalSeg seg →
      seg.data.contains '.' = false →
      localPathFor dir host ts ("/" ++ seg ++ "/") ct =
        joinSegs [dir, host, ts, seg] ++
          (if getExtensionFromContentType ct = "" then ".html"
            else getExtensionFromContentType ct)) :=
  ⟨fun dir host ts ct p hd hh ht hp => localPathFor_index dir host ts ct p hd hh ht hp,
    fun dir host ts seg ct hd hh ht hs hdot =>
      localPathFor_dirstyle dir host ts seg ct hd hh ht hs hdot⟩

/-- C5 witness: the amended claim instantiated at the empty path and at the
directory-style path `/about/`. -/
theorem c5_leaf_mapping_witness :
    localPathFor "websites" "example.com" "20200101120000" "" "text/css" =
      joinSegs ["websites", "example.com", "20200101120000", "index.html"] ∧
    localPathFor "websites" "example.com" "20200101120000" ("/" ++ "about" ++ "/")
        "text/css" =
      joinSegs ["websites", "example.com", "20200101120000", "about"] ++
        (if getExtensionFromContentType "text/css" = "" then ".html"
          else getExtensionFromContentType "text/css") :=
  ⟨c5_leaf_mapping.1 "websites" "example.com" "20200101120000" "text/css" ""
      (by decide) (by decide) (by decide) (Or.inl rfl),
    c5_leaf_mapping.2 "websites" "example.com" "20200101120000" "about" "text/css"
      (by decide) (by decide) (by decide) (by decide) (by decide)⟩

/-- C6: a mapped path whose final component already contains a `.` is kept
unchanged; otherwise the extension derived from the content type is
appended (`text/html→.html`, JS variants→`.js`, `text/css→.css`,
`image/jpeg→.jpg`, `image/png→.png`, `image/gif→.gif`,
`image/svg+xml→.svg`, `application/json→.json`), with `.html` appended
when the content type maps to no extension (absent or unrecognized). -/
theorem c6_extension_rules :
    (∀ dir host ts path ct : String,
      strContains (basename (joinPaths [dir, host, ts,
        if path = "" ∨ path = "/" then "index.html" else path])) "." = true →
      localPathFor dir host ts path ct =
        joinPaths [dir, host, ts, if path = "" ∨ path = "/" then "index.html" else path]) ∧
    (∀ dir host ts path ct : String,
      strContains (basename (joinPaths [dir, host, ts,
        if path = "" ∨ path = "/" then "index.html" else path])) "." = false →
      localPathFor dir host ts path ct =
        joinPaths [dir, host, ts, if path = "" ∨ path = "/" then "index.html" else path] ++
          (if getExtensionFromContentType ct = "" then ".html"
            else getExtensionFromContentType ct)) ∧
    (getExtensionFromContentType "text/html" = ".html" ∧
      getExtensionFromContentType "application/javascript" = ".js" ∧
      getExtensionFromContentType "text/javascript" = ".js" ∧
      getExtensionFromContentType "text/css" = ".css" ∧
      getExtensionFromContentType "image/jpeg" = ".jpg" ∧
      getExtensionFromContentType "image/png" = ".png" ∧
      getExtensionFromContentType "image/gif" = ".gif" ∧
      getExtensionFromContentType "image/svg+xml" = ".svg" ∧
      getExtensionFromContentType "application/json" = ".json" ∧
      getExtensionFromContentType "" = "") := by
  refine ⟨?_, ?_, by decide⟩
  · intro dir host ts path ct h
    simp only [localPathFor, h, Bool.not_true, Bool.false_eq_true, if_false]
  · intro dir host ts path ct h
    simp only [localPathFor, h, Bool.not_false, if_true]
    by_cases he : getExtensionFromContentType ct = "" <;> simp [he]

/-- C6 witness: the rules instantiated — `/a.css` keeps its extension under
any content type, and the extensionless `/dirstyle` leaf gets `.html`
appended for an absent content type. -/
theorem c6_extension_rules_witness :
    localPathFor "websites" "h" "t" "/a.css" "image/png" =
      joinPaths ["websites", "h", "t",
        if "/a.css" = "" ∨ "/a.css" = "/" then "index.html" else "/a.css"] ∧
    localPathFor "websites" "h" "t" "/dirstyle" "" =
      joinPaths ["websites", "h", "t",
        if "/dirstyle" = "" ∨ "/dirstyle" = "/" then "index.html" else "/dirstyle"] ++
        (if getExtensionFromContentType "" = "" then ".html"
          else getExtensionFromContentType "") :=
  ⟨c6_extension_rules.1 "websites" "h" "t" "/a.css" "image/png" (by decide),
    c6_extension_rules.2.1 "websites" "h" "t" "/dirstyle" "" (by decide)⟩

/-- C4 (amended): the index call surfaces transport failure, body-read
failure, empty body and malformed body as four distinct errors, but never
inspects the response's HTTP status code: two responses with the same body
and different status codes produce identical results. -/
theorem c4_index_error_taxonomy :
    (∀ (s₁ s₂ : Nat) (b : BodyShape),
      getRawListFromAPI (.response s₁ b) = getRawListFromAPI (.response s₂ b)) ∧
    getRawListFromAPI .transportFail = .error .transport ∧
    (∀ s : Nat, getRawListFromAPI (.readFail s) = .error .readBody) ∧
    (∀ s : Nat, getRawListFromAPI (.response s .empty) = .error .emptyBody) ∧
    (∀ s : Nat, getRawListFromAPI (.response s .malformed) = .error .malformedBody) ∧
    [IndexError.transport, .readBody, .emptyBody, .malformedBody].Pairwise (· ≠ ·) := by
  refine ⟨?_, rfl, fun s => rfl, fun s => rfl, fun s => rfl, by decide⟩
  intro s₁ s₂ b
  cases b <;> rfl

/-- C7: when the index call returns a snapshot list, the run never aborts
and every snapshot gets a recorded per-item result regardless of any
per-item failures (the download loop continues after an error); when the
index call fails, the run aborts with no fetch ever issued. -/
theorem c7_per_item_failures_never_stop_run :
    ∀ (cfg : Config) (env : Env) (idx : IndexNet),
      (∀ snaps : List Snapshot, getRawListFromAPI idx = .ok snaps →
        (mainRun cfg env idx).aborted = false ∧
        (mainRun cfg env idx).results.map Prod.fst = snaps) ∧
      (∀ e : IndexError, getRawListFromAPI idx = .error e →
        (mainRun cfg env idx).aborted = true ∧ (mainRun cfg env idx).fetchLog = []) := by
  intro cfg env idx
  constructor
  · intro snaps h
    constructor
    · simp [mainRun, h]
    · simp only [mainRun, h]
      exact runAll_results_map cfg env snaps ⟨[], []⟩
  · intro e h
    constructor <;> simp [mainRun, h]

/-- C7 witness: a run whose only snapshot fails with a transport error
still completes with that snapshot's result recorded, and a run with a
malformed index body aborts with no fetch. -/
theorem c7_per_item_failures_witness :
    ((mainRun exCfg trivEnv (.response 200 (.rows [["t", "u"]]))).aborted = false ∧
      (mainRun exCfg trivEnv (.response 200 (.rows [["t", "u"]]))).results.map Prod.fst =
        [⟨"t", "u"⟩]) ∧
    ((mainRun exCfg trivEnv (.response 200 .malformed)).aborted = true ∧
      (mainRun exCfg trivEnv (.response 200 .malformed)).fetchLog = []) :=
  ⟨(c7_per_item_failures_never_stop_run exCfg trivEnv
      (.response 200 (.rows [["t", "u"]]))).1 [⟨"t", "u"⟩] rfl,
    (c7_per_item_failures_never_stop_run exCfg trivEnv
      (.response 200 .malformed)).2 .malformedBody rfl⟩

/-- C8: discovery is depth one — every URL fetched during
`downloadRecursively` is either the retrieval URL of the top-level snapshot
itself or the retrieval URL of a resource discovered in that page by the
discovery phase; and plain `downloadFile` (which downloads each discovered
resource and never parses HTML) only ever fetches the retrieval URL of the
snapshot it is given, so discovered resources trigger no further
discovery and the crawl is bounded. -/
theorem c8_depth_one_discovery :
    (∀ (cfg : Config) (env : Env) (st : DState) (snap : Snapshot) (u : String),
      u ∈ (downloadRecursively cfg env st snap).2.2 →
      u = retrievalURL snap ∨
      ∃ hp : String × String, parseURL snap.Original = some hp ∧
        ∃ urls : List String,
          discoverPhase cfg env (downloadFile cfg env st snap).1 hp.1 hp.2
            snap.Timestamp = .ok urls ∧
          ∃ r ∈ urls, u = retrievalURL ⟨snap.Timestamp, cfg.BaseURL ++ r⟩) ∧
    (∀ (cfg : Config) (env : Env) (st : DState) (snap : Snapshot) (u : String),
      u ∈ (downloadFile cfg env st snap).2.2 → u = retrievalURL snap) := by
  refine ⟨?_, downloadFile_log⟩
  intro cfg env st snap u hu
  unfold downloadRecursively at hu
  split at hu
  · rename_i st1 e log heq
    exact Or.inl (downloadFile_log cfg env st snap u (by rw [heq]; exact hu))
  · rename_i st1 a log heq
    split at hu
    · exact Or.inl (downloadFile_log cfg env st snap u (by rw [heq]; exact hu))
    · rename_i q hp
      split at hu
      · exact Or.inl (downloadFile_log cfg env st snap u (by rw [heq]; exact hu))
      · rename_i urls hd
        have hu' : u ∈ log ++ (downloadResources cfg env st1 snap.Timestamp urls).2 := hu
        rcases List.mem_append.mp hu' with hu2 | hu2
        · exact Or.inl (downloadFile_log cfg env st snap u (by rw [heq]; exact hu2))
        · refine Or.inr ⟨q, hp, urls, ?_, ?_⟩
          · rw [show (downloadFile cfg env st snap).1 = st1 from by rw [heq]]
            exact hd
          · exact downloadResources_sound cfg env snap.Timestamp urls st1 u hu2

/-- C8 witness: in the concrete discovery run the retrieval URL of the
discovered stylesheet is fetched, and the theorem accounts for it. -/
theorem c8_depth_one_discovery_witness :
    "https://web.archive.org/web/tid_/http://h/style.css" ∈
      (downloadRecursively discCfg discEnv ⟨[], []⟩ discSnap).2.2 ∧
    ("https://web.archive.org/web/tid_/http://h/style.css" = retrievalURL discSnap ∨
      ∃ hp : String × String, parseURL discSnap.Original = some hp ∧
        ∃ urls : List String,
          discoverPhase discCfg discEnv (downloadFile discCfg discEnv ⟨[], []⟩ discSnap).1
            hp.1 hp.2 discSnap.Timestamp = .ok urls ∧
          ∃ r ∈ urls,
            "https://web.archive.org/web/tid_/http://h/style.css" =
              retrievalURL ⟨discSnap.Timestamp, discCfg.BaseURL ++ r⟩) :=
  ⟨by decide,
    c8_depth_one_discovery.1 discCfg discEnv ⟨[], []⟩ discSnap
      "https://web.archive.org/web/tid_/http://h/style.css" (by decide)⟩

/-- C9: (i) every candidate collected from a page traces back to a link
value that is either site-relative / dot-relative (the candidate is that
value, dot-trimmed) or a same-host absolute URL (the candidate is its
path) — so a link whose absolute URL has a different host never yields a
candidate; (ii) a same-host absolute link and the root-relative link with
the same path collect to the same candidate path (hence the same download
target `BaseURL ++ path`); (iii) a single cross-host absolute link
collects to nothing. -/
theorem c9_cross_host_never_enqueued :
    (∀ (pageHost : String) (doc : HNode) (u : String),
      u ∈ collectChain pageHost doc → ∃ v ∈ linkChain doc, linkYields pageHost v u) ∧
    (∀ pageHost p : String, (∀ c ∈ pageHost.data, c ≠ '/') →
      strStartsWith p "/" = true →
      collectChain pageHost (.node true [("href", "http://" ++ pageHost ++ p)] .nil .nil) =
        [p] ∧
      collectChain pageHost (.node true [("href", p)] .nil .nil) = [p]) ∧
    (∀ pageHost h p : String, h ≠ pageHost → (∀ c ∈ h.data, c ≠ '/') →
      strStartsWith p "/" = true →
      collectChain pageHost (.node true [("href", "http://" ++ h ++ p)] .nil .nil) = []) := by
  refine ⟨collectChain_sound, ?_, ?_⟩
  · intro pageHost p hfree hp
    constructor
    · rw [collectChain_single, attrURLs_single_abs pageHost pageHost p hfree hp]
      simp
    · rw [collectChain_single, attrURLs_single_rel pageHost p hp]
  · intro pageHost h p hne hfree hp
    rw [collectChain_single, attrURLs_single_abs pageHost h p hfree hp]
    simp [hne]

/-- C9 witness: instantiated for host `example.com` and path `/a`: the
same-host absolute link and the root-relative link both collect to `/a`,
and a link to `evil.com` collects to nothing. -/
theorem c9_cross_host_never_enqueued_witness :
    (collectChain "example.com"
        (.node true [("href", "http://" ++ "example.com" ++ "/a")] .nil .nil) = ["/a"] ∧
      collectChain "example.com" (.node true [("href", "/a")] .nil .nil) = ["/a"]) ∧
    collectChain "example.com"
      (.node true [("href", "http://" ++ "evil.com" ++ "/a")] .nil .nil) = [] :=
  ⟨c9_cross_host_never_enqueued.2.1 "example.com" "/a" (by decide) (by decide),
    c9_cross_host_never_enqueued.2.2 "example.com" "evil.com" "/a"
      (by decide) (by decide) (by decide)⟩

/-- C10: a run from the entrypoint attempts exactly the index's snapshots,
each through plain `downloadFile`: the fetch trace is precisely the list of
their retrieval URLs in order (so nothing discovered in any fetched page is
ever fetched), and the downloaded-timestamps ledger is still empty when the
run finishes (the entrypoint path never writes it). -/
theorem c10_entrypoint_plain_downloads :
    ∀ (cfg : Config) (env : Env) (idx : IndexNet) (snaps : List Snapshot),
      getRawListFromAPI idx = .ok snaps →
      (mainRun cfg env idx).fetchLog = snaps.map retrievalURL ∧
      (mainRun cfg env idx).finalLedger = [] := by
  intro cfg env idx snaps h
  simp only [mainRun, h]
  have hf := runAll_fresh cfg env snaps ⟨[], []⟩ rfl
  exact ⟨hf.2, hf.1⟩

/-- C10 witness: the duplicate-key run instantiates the theorem — its fetch
trace is the retrieval URL of each listed snapshot in order and its final
ledger is empty. -/
theorem c10_entrypoint_plain_downloads_witness :
    (mainRun exCfg dupEnv dupIndex).fetchLog =
      ([⟨"20200101120000", "http://example.com/a.js"⟩,
        ⟨"20200101120000", "http://example.com/a.js"⟩] : List Snapshot).map retrievalURL ∧
    (mainRun exCfg dupEnv dupIndex).finalLedger = [] :=
  c10_entrypoint_plain_downloads exCfg dupEnv dupIndex
    [⟨"20200101120000", "http://example.com/a.js"⟩,
      ⟨"20200101120000", "http://example.com/a.js"⟩] rfl

end Wayback

